import Mathlib

/-!
Verification of the `PreliminaryClustering` pipeline
(FisherVectorsAndSVR-for-AutomaticPainRecognition, src/PreliminaryClustering.py).

The pipeline stages are embedded as pure functions over `ℚ`:
frames are lists of `2·L` landmark coordinates, videos are lists of frames.
External numerical capabilities (the robust scaler of scikit-learn and the
Fisher-vector GMM engine) are kept abstract as function parameters, exactly
as the specification treats them (black-box capabilities behind a narrow
interface).  The floating point square root `x ** 0.5` of the extractor is
kept abstract as a parameter `rt : ℚ → ℚ`; the only fact about it any
statement needs is `rt 0 = 0`, which holds of the real square root.
-/

namespace PrelimClustering

/-- A landmark row of one frame: `2·L` coordinates laid out
`[x₀..x_{L-1}, y₀..y_{L-1}]` (the two leading CSV columns, sequence number
and frame number, are already stripped, mirroring `lndks[:, 2:]`). -/
abbrev Frame := List ℚ

/-- One video: an ordered list of landmark frames. -/
abbrev Video := List Frame

/-- Nose-tip centering of one frame (`__get_velocities_frames`, lines 48-52):
the nose-tip x (column `30`) is subtracted from the first `L` columns and the
nose-tip y (column `30 + L`) from the last `L` columns. -/
def centerFrame (L : ℕ) (fr : Frame) : Frame :=
  (List.range (2 * L)).map (fun i =>
    fr.getD i 0 - (if i < L then fr.getD 30 0 else fr.getD (30 + L) 0))

/-- Velocity row between two consecutive centered frames (lines 53-57): per
landmark `i < L`, `((aₓᵢ - bₓᵢ)² + (a_yᵢ - b_yᵢ)²) ** 0.5`, with the square
root abstracted as `rt`. -/
def frameVel (rt : ℚ → ℚ) (L : ℕ) (a b : Frame) : List ℚ :=
  (List.range L).map (fun i =>
    rt ((a.getD i 0 - b.getD i 0) ^ 2 + (a.getD (L + i) 0 - b.getD (L + i) 0) ^ 2))

/-- The per-video velocity matrix `lndk_vel` (lines 53-57): one row per pair
of temporally consecutive frames, so `F - 1` rows for `F` frames. -/
def lndkVel (rt : ℚ → ℚ) (L : ℕ) (video : Video) : List (List ℚ) :=
  let c := video.map (centerFrame L)
  (c.zip c.tail).map (fun p => frameVel rt L p.1 p.2)

/-- The collected per-video features `data_velocities` (lines 58-61): the
loop `for k in np.arange(1, lndk_vel.shape[0])` visits rows `1..F-2` of
`lndk_vel`, i.e. drops row `0`, and restricts each row to the selected
landmark indexes. -/
def dataVelocities (rt : ℚ → ℚ) (L : ℕ) (sel : List ℕ) (video : Video) : List (List ℚ) :=
  ((lndkVel rt L video).drop 1).map (fun row => sel.map (fun i => row.getD i 0))

/-- `__get_velocities_frames` over the whole dataset (lines 34-62): one
feature matrix per video, in sequence order. -/
def get_velocities_frames (rt : ℚ → ℚ) (L : ℕ) (sel : List ℕ) (videos : List Video) :
    List (List (List ℚ)) :=
  videos.map (dataVelocities rt L sel)

/-- Contribution of one Fisher-vector frame to accumulator entry `j`
(`__generate_histograms`, lines 157-158): the sum of the mean-gradient block
`frame[j]` plus the sum of the covariance-gradient block `frame[j + K]`. -/
def frameContrib (K : ℕ) (fr : List (List ℚ)) (j : ℕ) : ℚ :=
  (fr.getD j []).sum + (fr.getD (j + K) []).sum

/-- The unnormalized accumulator `video_histogram` after the frame loop
(lines 154-158): entry `j` is the sum over frames of `frameContrib`. -/
def videoHistogramRaw (K : ℕ) (frames : List (List (List ℚ))) : List ℚ :=
  (List.range K).map (fun j => (frames.map (fun fr => frameContrib K fr j)).sum)

/-- The normalized histogram of one video (line 159):
`video_histogram / sum(video_histogram)`.  The source performs this division
unconditionally; when the accumulated sum is `0` numpy emits NaN entries and
raises nothing, which the embedding renders through the `ℚ` convention
`x / 0 = 0`, likewise raising nothing. -/
def videoHistogram (K : ℕ) (frames : List (List (List ℚ))) : List ℚ :=
  let raw := videoHistogramRaw K frames
  raw.map (fun x => x / raw.sum)

/-- `__generate_histograms` (lines 142-161): each element of
`fisher_vectors` is a batched structure and `video_fv[0]` is its list of
per-frame Fisher-vector frames. -/
def generate_histograms (K : ℕ) (fvs : List (List (List (List (List ℚ))))) :
    List (List ℚ) :=
  fvs.map (fun video_fv => videoHistogram K (video_fv.getD 0 []))

/-- The training selection `[velocities[i] for i in self.train_video_idx]`
(line 71 and line 92). -/
def train_velocities (ti : List ℕ) (vel : List (List (List ℚ))) : List (List (List ℚ)) :=
  ti.map (fun i => vel.getD i [])

/-- The flat training matrix `features_train_frames` (line 72): all frames of
the training videos, in training-index order then frame order. -/
def features_train_frames (ti : List ℕ) (vel : List (List (List ℚ))) : List (List ℚ) :=
  (train_velocities ti vel).flatten

/-- The flat dataset matrix `features_all_frames` (line 73). -/
def features_all_frames (vel : List (List (List ℚ))) : List (List ℚ) :=
  vel.flatten

/-- The write-back loop of `__scale_features` (lines 75-79): the transformed
flat rows are written back video by video, frame by frame, consuming
consecutive flat indexes (`feat_count`). -/
def chunkLike : List (List (List ℚ)) → List (List ℚ) → List (List (List ℚ))
  | [], _ => []
  | v :: vs, flat => flat.take v.length :: chunkLike vs (flat.drop v.length)

/-- `__scale_features` (lines 64-80), with the scikit-learn `RobustScaler`
kept abstract exactly as the specification treats it: `fit` computes scaling
parameters of type `P` from the training rows only, `transform` maps rows
under those parameters. -/
def scale_features {P : Type} (fit : List (List ℚ) → P)
    (transform : P → List (List ℚ) → List (List ℚ))
    (ti : List ℕ) (vel : List (List (List ℚ))) : List (List (List ℚ)) :=
  chunkLike vel (transform (fit (features_train_frames ti vel)) (features_all_frames vel))

/-- The error taxonomy of the specification, as far as the verified stages
need it. -/
inductive PipelineError : Type
  | emptyTrainingSetError
  | valueError
  | indexError
deriving DecidableEq

/-- Modelled from the spec: `__scale_features` aborting on an empty training
set (spec 4.2 Failure).  The failing call itself lives in the external
scaler capability — scikit-learn's `RobustScaler.fit` rejects a matrix with
zero samples — so the failure is made explicit here as
`EmptyTrainingSetError`. -/
def scale_featuresE {P : Type} (fit : List (List ℚ) → P)
    (transform : P → List (List ℚ) → List (List ℚ))
    (ti : List ℕ) (vel : List (List (List ℚ))) :
    Except PipelineError (List (List (List ℚ))) :=
  if (features_train_frames ti vel).length = 0 then
    .error .emptyTrainingSetError
  else
    .ok (scale_features fit transform ti vel)

/-- `__prepare_training_features` (lines 82-103): the 4D training tensor of
shape `[1, train_num_frames, 1, n_features_for_frame]`.  The filling loop
walks `self.train_video_idx` in order and each video's frames in order, so
the second axis is exactly the flat training matrix; each frame sits inside
a singleton channel list, and the whole inside a singleton batch list. -/
def prepare_training_features (ti : List ℕ) (vel : List (List (List ℚ))) :
    List (List (List (List ℚ))) :=
  [(features_train_frames ti vel).map (fun fr => [fr])]

/-- Flat position of frame `f` of video `v` in the video-major flattening of
`l` (the `feat_count` and `index_frame` counters of the source). -/
def flatIdx {α : Type} (l : List (List α)) (v f : ℕ) : ℕ :=
  ((l.take v).map List.length).sum + f

/-- The dynamic type of `self.threshold_neutral`: a single float, or a list
parallel to the BIC candidate kernel counts. -/
inductive ThresholdParam : Type
  | single (t : ℚ)
  | list (ts : List ℚ)
deriving DecidableEq

/-- The state update of `__generate_gmm` in BIC mode (lines 111-119): the
fit itself is the external capability and `realized` stands for
`len(gmm.means)` of the model it returned.  When `threshold_neutral` is a
Python list the code replaces it by the element at position
`self.n_kernels.index(realized)`; Python raises `ValueError` when `realized`
is absent from the candidate list and `IndexError` when the threshold list
is too short, both made explicit.  Returns the updated
`(threshold_neutral, n_kernels)` pair. -/
def generate_gmm_bic_update (candidates : List ℕ) (thr : ThresholdParam)
    (realized : ℕ) : Except PipelineError (ThresholdParam × ℕ) :=
  match thr with
  | .list ts =>
    match candidates.findIdx? (fun c => c == realized) with
    | none => .error .valueError
    | some i =>
      match ts[i]? with
      | none => .error .indexError
      | some t => .ok (.single t, realized)
  | .single t => .ok (.single t, realized)

/-- The inner loop of `__extract_relevant_and_neutral_configurations`
(lines 183-185) over one pain-free training video's histogram: every
component index whose histogram value strictly exceeds the threshold, and
which is not already recorded, is appended. -/
def neutralScan (K : ℕ) (thr : ℚ) (hist : List ℚ) (acc : List ℕ) : List ℕ :=
  (List.range K).foldl
    (fun a j => if hist.getD j 0 > thr ∧ j ∉ a then a ++ [j] else a) acc

/-- The neutral-index extraction (lines 177-185): training videos are
scanned in training-index order and only those with VAS label `0`
contribute. -/
def extract_neutral (labels : List ℤ) (ti : List ℕ) (hists : List (List ℚ))
    (K : ℕ) (thr : ℚ) : List ℕ :=
  ti.foldl
    (fun acc s =>
      if labels.getD s 1 = 0 then neutralScan K thr (hists.getD s []) acc else acc)
    []

/-- Line 186: the relevant indexes are the complement of the neutral ones
within `{0, ..., K-1}`. -/
def extract_relevant (labels : List ℤ) (ti : List ℕ) (hists : List (List ℚ))
    (K : ℕ) (thr : ℚ) : List ℕ :=
  (List.range K).filter (fun x => x ∉ extract_neutral labels ti hists K thr)

/-- `execute_preliminary_clustering` (lines 206-220) up to the partition, in
fixed-kernel-count mode, with the external capabilities abstract: scaler
`fit`/`transform`, GMM fitting `gmmFit`, per-video Fisher-vector `predict`. -/
def execute_preliminary_clustering {P G : Type}
    (rt : ℚ → ℚ) (L : ℕ) (sel : List ℕ) (videos : List Video)
    (fit : List (List ℚ) → P) (transform : P → List (List ℚ) → List (List ℚ))
    (ti : List ℕ)
    (gmmFit : List (List (List (List ℚ))) → G)
    (predict : G → List (List ℚ) → List (List (List (List ℚ))))
    (K : ℕ) (labels : List ℤ) (thr : ℚ) :
    Except PipelineError (List (List ℚ) × List ℕ × List ℕ) := do
  let velocities := get_velocities_frames rt L sel videos
  let scaled ← scale_featuresE fit transform ti velocities
  let train := prepare_training_features ti scaled
  let gmm := gmmFit train
  let fvs := scaled.map (fun feature => predict gmm feature)
  let hists := generate_histograms K fvs
  pure (hists, extract_relevant labels ti hists K thr,
    extract_neutral labels ti hists K thr)

end PrelimClustering

namespace PrelimClustering

theorem lndkVel_length (rt : ℚ → ℚ) (L : ℕ) (video : Video) :
    (lndkVel rt L video).length = video.length - 1 := by
  simp [lndkVel, List.length_zip]

/-- Claim C3: for every video with `F` frames, the pairwise-consecutive-frame
velocity array `lndk_vel` has `F - 1` rows, and the extractor skips the first
of these (its collection loop starts at index 1), so it produces exactly
`F - 2` motion feature vectors. -/
theorem velocity_count_eq (rt : ℚ → ℚ) (L : ℕ) (sel : List ℕ) (video : Video) :
    (lndkVel rt L video).length = video.length - 1 ∧
    (dataVelocities rt L sel video).length = video.length - 2 := by
  refine ⟨lndkVel_length rt L video, ?_⟩
  simp [dataVelocities, lndkVel_length]
  omega

theorem getD_map_lt {α β : Type} (f : α → β) (l : List α) (n : ℕ) (d : β) (d' : α)
    (h : n < l.length) : (l.map f).getD n d = f (l.getD n d') := by
  simp [List.getD_eq_getElem?_getD, List.getElem?_map, List.getElem?_eq_getElem h]

theorem list_sum_div (l : List ℚ) (S : ℚ) : (l.map (fun x => x / S)).sum = l.sum / S := by
  induction l with
  | nil => simp
  | cons a t ih => simp [ih, add_div]

theorem videoHistogramRaw_nonneg (K : ℕ) (frames : List (List (List ℚ)))
    (hnn : ∀ fr ∈ frames, ∀ j < K, 0 ≤ frameContrib K fr j) :
    ∀ x ∈ videoHistogramRaw K frames, 0 ≤ x := by
  intro x hx
  simp only [videoHistogramRaw, List.mem_map, List.mem_range] at hx
  obtain ⟨j, hj, rfl⟩ := hx
  refine List.sum_nonneg ?_
  intro y hy
  simp only [List.mem_map] at hy
  obtain ⟨fr, hfr, rfl⟩ := hy
  exact hnn fr hfr j hj

theorem videoHistogram_spec (K : ℕ) (frames : List (List (List ℚ)))
    (hnn : ∀ fr ∈ frames, ∀ j < K, 0 ≤ frameContrib K fr j)
    (hpos : ∃ fr ∈ frames, ∃ j < K, 0 < frameContrib K fr j) :
    (videoHistogram K frames).length = K ∧
    (∀ x ∈ videoHistogram K frames, 0 ≤ x) ∧
    (videoHistogram K frames).sum = 1 := by
  have hrawnn := videoHistogramRaw_nonneg K frames hnn
  obtain ⟨fr0, hfr0, j0, hj0, hcpos⟩ := hpos
  have hentry : frameContrib K fr0 j0 ≤ (frames.map (fun fr => frameContrib K fr j0)).sum := by
    refine List.single_le_sum ?_ _ (List.mem_map_of_mem _ hfr0)
    intro y hy
    simp only [List.mem_map] at hy
    obtain ⟨fr, hfr, rfl⟩ := hy
    exact hnn fr hfr j0 hj0
  have hmem : (frames.map (fun fr => frameContrib K fr j0)).sum ∈ videoHistogramRaw K frames := by
    simp only [videoHistogramRaw, List.mem_map, List.mem_range]
    exact ⟨j0, hj0, rfl⟩
  have hsumpos : 0 < (videoHistogramRaw K frames).sum :=
    lt_of_lt_of_le (lt_of_lt_of_le hcpos hentry)
      (List.single_le_sum hrawnn _ hmem)
  refine ⟨?_, ?_, ?_⟩
  · simp [videoHistogram, videoHistogramRaw]
  · intro x hx
    simp only [videoHistogram, List.mem_map] at hx
    obtain ⟨y, hy, rfl⟩ := hx
    exact div_nonneg (hrawnn y hy) (le_of_lt hsumpos)
  · simp only [videoHistogram, list_sum_div]
    exact div_self (ne_of_gt hsumpos)

/-- Claim C1: every Video Histogram produced by `__generate_histograms` is a
`K`-length vector with non-negative entries summing to `1`, provided the
video has at least one frame contributing non-zero (positive) gradient mass
and every per-frame gradient-block mass is non-negative. -/
theorem histogram_nonneg_sum_one (K : ℕ) (fvs : List (List (List (List (List ℚ)))))
    (v : ℕ) (hv : v < fvs.length)
    (hnn : ∀ fr ∈ (fvs.getD v []).getD 0 [], ∀ j < K, 0 ≤ frameContrib K fr j)
    (hpos : ∃ fr ∈ (fvs.getD v []).getD 0 [], ∃ j < K, 0 < frameContrib K fr j) :
    ((generate_histograms K fvs).getD v []).length = K ∧
    (∀ x ∈ (generate_histograms K fvs).getD v [], 0 ≤ x) ∧
    ((generate_histograms K fvs).getD v []).sum = 1 := by
  have hrw : (generate_histograms K fvs).getD v [] =
      videoHistogram K ((fvs.getD v []).getD 0 []) :=
    getD_map_lt _ fvs v [] [] hv
  rw [hrw]
  exact videoHistogram_spec K _ hnn hpos

/-- Witness for claim C1 at a concrete video: one frame, `K = 1`,
mean-gradient block `[1]`, covariance-gradient block `[0]`. -/
theorem histogram_nonneg_sum_one_witness :
    (0 < 1 ∧
      (∀ fr ∈ [[[(1 : ℚ)], [0]]], ∀ j < 1, 0 ≤ frameContrib 1 fr j) ∧
      (∃ fr ∈ [[[(1 : ℚ)], [0]]], ∃ j < 1, 0 < frameContrib 1 fr j)) ∧
    (((generate_histograms 1 [[[[[1], [0]]]]]).getD 0 []).length = 1 ∧
      (∀ x ∈ (generate_histograms 1 [[[[[(1 : ℚ)], [0]]]]]).getD 0 [], 0 ≤ x) ∧
      ((generate_histograms 1 [[[[[(1 : ℚ)], [0]]]]]).getD 0 []).sum = 1) :=
  ⟨⟨by decide, by norm_num [frameContrib], by norm_num [frameContrib]⟩,
    histogram_nonneg_sum_one 1 [[[[[1], [0]]]]] 0 (by decide)
      (by norm_num [frameContrib]) (by norm_num [frameContrib])⟩

theorem chunkLike_length (vel : List (List (List ℚ))) (flat : List (List ℚ)) :
    (chunkLike vel flat).length = vel.length := by
  induction vel generalizing flat with
  | nil => simp [chunkLike]
  | cons w ws ih => simp [chunkLike, ih]

theorem chunkLike_getD_length (vel : List (List (List ℚ))) (flat : List (List ℚ))
    (hflat : flat.length = (vel.map List.length).sum) (v : ℕ) (hv : v < vel.length) :
    ((chunkLike vel flat).getD v []).length = (vel.getD v []).length := by
  induction vel generalizing flat v with
  | nil => simp at hv
  | cons w ws ih =>
    simp only [List.map_cons, List.sum_cons] at hflat
    cases v with
    | zero =>
      simp [chunkLike, List.length_take]
      omega
    | succ v =>
      show ((chunkLike ws (flat.drop w.length)).getD v []).length = (ws.getD v []).length
      exact ih (flat.drop w.length) (by simp [List.length_drop]; omega) v
        (by simpa using hv)

theorem flatIdx_cons_succ {α : Type} (w : List α) (ws : List (List α)) (v f : ℕ) :
    flatIdx (w :: ws) (v + 1) f = w.length + flatIdx ws v f := by
  simp [flatIdx, List.take_succ_cons, Nat.add_assoc]

theorem chunkLike_getD_getD (vel : List (List (List ℚ))) (flat : List (List ℚ))
    (v f : ℕ) (hv : v < vel.length) (hf : f < (vel.getD v []).length) :
    ((chunkLike vel flat).getD v []).getD f [] = flat.getD (flatIdx vel v f) [] := by
  induction vel generalizing flat v with
  | nil => simp at hv
  | cons w ws ih =>
    cases v with
    | zero =>
      simp only [List.getD_cons_zero] at hf
      show (flat.take w.length).getD f [] = flat.getD (flatIdx (w :: ws) 0 f) []
      have h0 : flatIdx (w :: ws) 0 f = f := by simp [flatIdx]
      rw [h0, List.getD_eq_getElem?_getD, List.getD_eq_getElem?_getD,
        List.getElem?_take, if_pos hf]
    | succ v =>
      show ((chunkLike ws (flat.drop w.length)).getD v []).getD f [] =
        flat.getD (flatIdx (w :: ws) (v + 1) f) []
      rw [ih (flat.drop w.length) v (by simpa using hv) (by simpa using hf)]
      rw [flatIdx_cons_succ, List.getD_eq_getElem?_getD, List.getD_eq_getElem?_getD,
        List.getElem?_drop]

theorem flatten_getD {α : Type} (d : α) (l : List (List α)) (v f : ℕ)
    (hv : v < l.length) (hf : f < (l.getD v []).length) :
    l.flatten.getD (flatIdx l v f) d = (l.getD v []).getD f d := by
  induction l generalizing v with
  | nil => simp at hv
  | cons w ws ih =>
    rw [List.flatten_cons]
    cases v with
    | zero =>
      simp only [List.getD_cons_zero] at hf ⊢
      have h0 : flatIdx (w :: ws) 0 f = f := by simp [flatIdx]
      rw [h0, List.getD_eq_getElem?_getD, List.getD_eq_getElem?_getD,
        List.getElem?_append, if_pos hf]
    | succ v =>
      simp only [List.getD_cons_succ] at hf ⊢
      rw [flatIdx_cons_succ, List.getD_eq_getElem?_getD,
        List.getElem?_append_right (by omega), Nat.add_sub_cancel_left,
        ← List.getD_eq_getElem?_getD]
      exact ih v (by simpa using hv) hf

theorem flatIdx_lt_flatten_length {α : Type} (l : List (List α)) (v f : ℕ)
    (hv : v < l.length) (hf : f < (l.getD v []).length) :
    flatIdx l v f < l.flatten.length := by
  induction l generalizing v with
  | nil => simp at hv
  | cons w ws ih =>
    rw [List.flatten_cons, List.length_append]
    cases v with
    | zero =>
      simp only [List.getD_cons_zero] at hf
      have h0 : flatIdx (w :: ws) 0 f = f := by simp [flatIdx]
      omega
    | succ v =>
      simp only [List.getD_cons_succ] at hf
      have := ih v (by simpa using hv) hf
      rw [flatIdx_cons_succ]
      omega

/-- Claim C4: the scaler's fitted parameters depend only on the frames of
training videos — two inputs agreeing on every training video's feature
array yield identical fitted statistics, whatever the parameter type and
fitting function of the scaler capability — and the scaled output preserves
each feature's video index and frame index exactly (same video count, same
per-video frame count, and the row at video `v`, frame `f` is the
transformed flat row at the flat position of `(v, f)`). -/
theorem scaler_train_only_and_layout {P : Type} (fit : List (List ℚ) → P)
    (transform : P → List (List ℚ) → List (List ℚ))
    (ti : List ℕ) (v1 v2 vel : List (List (List ℚ)))
    (hagree : ∀ i ∈ ti, v1.getD i [] = v2.getD i [])
    (hlen : ∀ p xs, (transform p xs).length = xs.length) :
    fit (features_train_frames ti v1) = fit (features_train_frames ti v2) ∧
    (scale_features fit transform ti vel).length = vel.length ∧
    (∀ v, v < vel.length →
      ((scale_features fit transform ti vel).getD v []).length =
        (vel.getD v []).length) ∧
    (∀ v f, v < vel.length → f < (vel.getD v []).length →
      ((scale_features fit transform ti vel).getD v []).getD f [] =
        (transform (fit (features_train_frames ti vel))
            (features_all_frames vel)).getD (flatIdx vel v f) []) := by
  refine ⟨?_, ?_, ?_, ?_⟩
  · have htv : train_velocities ti v1 = train_velocities ti v2 :=
      List.map_congr_left hagree
    simp [features_train_frames, htv]
  · exact chunkLike_length _ _
  · intro v hv
    exact chunkLike_getD_length _ _
      (by rw [hlen]; simp [features_all_frames, List.length_flatten]) v hv
  · intro v f hv hf
    exact chunkLike_getD_getD _ _ v f hv hf

/-- Witness for claim C4 with the identity scaler capability, one training
video `[[1]]`, a second input differing only in a non-training video, and a
one-video dataset to scale. -/
theorem scaler_train_only_and_layout_witness :
    ((∀ i ∈ [0], [[[(1 : ℚ)]]].getD i [] = [[[(1 : ℚ)]], [[2]]].getD i []) ∧
      (∀ (p xs : List (List ℚ)), ((fun _ x => x : List (List ℚ) →
        List (List ℚ) → List (List ℚ)) p xs).length = xs.length)) ∧
    ((fun x => x : List (List ℚ) → List (List ℚ))
        (features_train_frames [0] [[[(1 : ℚ)]]]) =
      (fun x => x : List (List ℚ) → List (List ℚ))
        (features_train_frames [0] [[[(1 : ℚ)]], [[2]]]) ∧
    (scale_features (fun x => x) (fun _ x => x) [0] [[[(3 : ℚ)]]]).length =
      [[[(3 : ℚ)]]].length ∧
    (∀ v, v < [[[(3 : ℚ)]]].length →
      ((scale_features (fun x => x) (fun _ x => x) [0] [[[(3 : ℚ)]]]).getD v []).length =
        ([[[(3 : ℚ)]]].getD v []).length) ∧
    (∀ v f, v < [[[(3 : ℚ)]]].length → f < ([[[(3 : ℚ)]]].getD v []).length →
      ((scale_features (fun x => x) (fun _ x => x) [0] [[[(3 : ℚ)]]]).getD v []).getD f [] =
        ((fun _ x => x : List (List ℚ) → List (List ℚ) → List (List ℚ))
            ((fun x => x : List (List ℚ) → List (List ℚ))
              (features_train_frames [0] [[[(3 : ℚ)]]]))
            (features_all_frames [[[(3 : ℚ)]]])).getD (flatIdx [[[(3 : ℚ)]]] v f) [])) :=
  ⟨⟨by simp, fun _ _ => rfl⟩,
    scaler_train_only_and_layout (fun x => x) (fun _ x => x) [0]
      [[[(1 : ℚ)]]] [[[(1 : ℚ)]], [[2]]] [[[(3 : ℚ)]]] (by simp) (fun _ _ => rfl)⟩

/-- Claim C9: the training tensor built by `__prepare_training_features`
has 4-dimensional shape `[1, total_training_frames, 1, feature_dim]` with
`total_training_frames` the sum over training videos of the per-video
feature count, and the features laid out in training-index order then frame
order. -/
theorem training_tensor_shape (ti : List ℕ) (vel : List (List (List ℚ))) (D : ℕ)
    (hD : ∀ i ∈ ti, ∀ fr ∈ vel.getD i [], fr.length = D) :
    (prepare_training_features ti vel).length = 1 ∧
    ((prepare_training_features ti vel).getD 0 []).length =
      (ti.map (fun i => (vel.getD i []).length)).sum ∧
    (∀ row ∈ (prepare_training_features ti vel).getD 0 [], row.length = 1) ∧
    (∀ row ∈ (prepare_training_features ti vel).getD 0 [], ∀ fr ∈ row,
      fr.length = D) ∧
    (∀ v f, v < ti.length → f < (vel.getD (ti.getD v 0) []).length →
      ((prepare_training_features ti vel).getD 0 []).getD
          (flatIdx (train_velocities ti vel) v f) [] =
        [(vel.getD (ti.getD v 0) []).getD f []]) := by
  refine ⟨rfl, ?_, ?_, ?_, ?_⟩
  · simp [prepare_training_features, features_train_frames, train_velocities,
      List.length_flatten, List.map_map, Function.comp_def]
  · intro row hrow
    simp only [prepare_training_features, List.getD_cons_zero, List.mem_map] at hrow
    obtain ⟨fr, _, rfl⟩ := hrow
    rfl
  · intro row hrow fr hfr
    simp only [prepare_training_features, List.getD_cons_zero, List.mem_map] at hrow
    obtain ⟨fr0, hfr0, rfl⟩ := hrow
    simp only [List.mem_singleton] at hfr
    subst hfr
    simp only [features_train_frames, List.mem_flatten] at hfr0
    obtain ⟨lv, hlv, hmem⟩ := hfr0
    simp only [train_velocities, List.mem_map] at hlv
    obtain ⟨i, hi, rfl⟩ := hlv
    exact hD i hi fr hmem
  · intro v f hv hf
    have htv : (train_velocities ti vel).getD v [] = vel.getD (ti.getD v 0) [] :=
      getD_map_lt _ ti v [] 0 hv
    have hvlt : v < (train_velocities ti vel).length := by
      simpa [train_velocities] using hv
    have hflt : f < ((train_velocities ti vel).getD v []).length := by
      rw [htv]; exact hf
    have hidx : flatIdx (train_velocities ti vel) v f <
        (features_train_frames ti vel).length :=
      flatIdx_lt_flatten_length _ v f hvlt hflt
    show ((features_train_frames ti vel).map (fun fr => [fr])).getD
        (flatIdx (train_velocities ti vel) v f) [] = _
    rw [getD_map_lt (fun fr => [fr]) _ _ [] [] hidx]
    rw [show (features_train_frames ti vel).getD (flatIdx (train_velocities ti vel) v f) []
        = ((train_velocities ti vel).getD v []).getD f [] from
      flatten_getD [] (train_velocities ti vel) v f hvlt hflt]
    rw [htv]

/-- Witness for claim C9: one training video with a single one-dimensional
frame. -/
theorem training_tensor_shape_witness :
    (∀ i ∈ [0], ∀ fr ∈ [[[(1 : ℚ)]]].getD i [], fr.length = 1) ∧
    ((prepare_training_features [0] [[[(1 : ℚ)]]]).length = 1 ∧
      ((prepare_training_features [0] [[[(1 : ℚ)]]]).getD 0 []).length =
        ([0].map (fun i => ([[[(1 : ℚ)]]].getD i []).length)).sum ∧
      (∀ row ∈ (prepare_training_features [0] [[[(1 : ℚ)]]]).getD 0 [],
        row.length = 1) ∧
      (∀ row ∈ (prepare_training_features [0] [[[(1 : ℚ)]]]).getD 0 [],
        ∀ fr ∈ row, fr.length = 1) ∧
      (∀ v f, v < [0].length → f < ([[[(1 : ℚ)]]].getD ([0].getD v 0) []).length →
        ((prepare_training_features [0] [[[(1 : ℚ)]]]).getD 0 []).getD
            (flatIdx (train_velocities [0] [[[(1 : ℚ)]]]) v f) [] =
          [([[[(1 : ℚ)]]].getD ([0].getD v 0) []).getD f []])) :=
  ⟨by simp, training_tensor_shape [0] [[[(1 : ℚ)]]] 1 (by simp)⟩

/-- Claim C7: an empty training video index set (or one yielding zero
training frames) makes the pipeline fail with `EmptyTrainingSetError`,
whatever the GMM fitting capability — i.e. before any model fit can take
part in the run. -/
theorem empty_training_aborts {P G : Type}
    (rt : ℚ → ℚ) (L : ℕ) (sel : List ℕ) (videos : List Video)
    (fit : List (List ℚ) → P) (transform : P → List (List ℚ) → List (List ℚ))
    (ti : List ℕ) (gmmFit : List (List (List (List ℚ))) → G)
    (predict : G → List (List ℚ) → List (List (List (List ℚ))))
    (K : ℕ) (labels : List ℤ) (thr : ℚ)
    (h : ti = [] ∨
      features_train_frames ti (get_velocities_frames rt L sel videos) = []) :
    execute_preliminary_clustering rt L sel videos fit transform ti gmmFit predict
      K labels thr = .error .emptyTrainingSetError := by
  have hempty :
      (features_train_frames ti (get_velocities_frames rt L sel videos)).length = 0 := by
    rcases h with h | h
    · simp [features_train_frames, train_velocities, h]
    · simp [h]
  simp [execute_preliminary_clustering, scale_featuresE, hempty, Bind.bind, Except.bind]

/-- Witness for claim C7: the empty training index set, trivial
capabilities. -/
theorem empty_training_aborts_witness :
    (([] : List ℕ) = [] ∨
      features_train_frames [] (get_velocities_frames (fun q => q) 0 [] []) = []) ∧
    execute_preliminary_clustering (fun q => q) 0 [] []
        (fun x => x : List (List ℚ) → List (List ℚ)) (fun _ x => x) []
        (fun _ => ()) (fun _ _ => []) 2 [] 0 = .error .emptyTrainingSetError :=
  ⟨Or.inl rfl,
    empty_training_aborts (fun q => q) 0 [] [] (fun x => x) (fun _ x => x) []
      (fun _ => ()) (fun _ _ => []) 2 [] 0 (Or.inl rfl)⟩

theorem findIdx?_eq_some_of_first (l : List ℕ) (x : ℕ) (i : ℕ) (hi : i < l.length)
    (hx : l.getD i 0 = x) (hfirst : ∀ j, j < i → l.getD j 0 ≠ x) :
    l.findIdx? (fun c => c == x) = some i := by
  induction l generalizing i with
  | nil => simp at hi
  | cons a as ih =>
    rw [List.findIdx?_cons]
    cases i with
    | zero =>
      simp only [List.getD_cons_zero] at hx
      simp [hx]
    | succ i =>
      have ha : ¬((a == x) = true) := by
        have h0 := hfirst 0 (Nat.succ_pos i)
        simpa [List.getD_cons_zero] using h0
      rw [if_neg ha, List.findIdx?_succ]
      rw [ih i (by simpa using hi) (by simpa using hx)
        (fun j hj => by simpa using hfirst (j + 1) (by omega))]
      rfl

/-- Claim C2: in BIC-selection mode with the neutral threshold supplied as a
list parallel to the candidate kernel-count list, `__generate_gmm` sets the
threshold to the list element at the (first) index where the realized
kernel count occurs in the candidate list, and the realized kernel count
becomes the pipeline's `n_kernels` for all subsequent steps. -/
theorem bic_threshold_selection (candidates : List ℕ) (ts : List ℚ) (realized : ℕ)
    (i : ℕ) (hi : i < candidates.length) (hwin : candidates.getD i 0 = realized)
    (hfirst : ∀ j, j < i → candidates.getD j 0 ≠ realized) (hts : i < ts.length) :
    generate_gmm_bic_update candidates (.list ts) realized =
      .ok (.single (ts.getD i 0), realized) := by
  rw [generate_gmm_bic_update,
    findIdx?_eq_some_of_first candidates realized i hi hwin hfirst]
  simp [List.getD_eq_getElem?_getD, List.getElem?_eq_getElem hts]

/-- Witness for claim C2, the scenario of the specification: candidate
kernel counts `[2, 3]`, thresholds `[0.2, 0.4]`, realized kernel count `3`
(position 1). -/
theorem bic_threshold_selection_witness :
    (1 < [2, 3].length ∧ [2, 3].getD 1 0 = 3 ∧ (∀ j, j < 1 → [2, 3].getD j 0 ≠ 3) ∧
      1 < [(1 : ℚ)/5, 2/5].length) ∧
    generate_gmm_bic_update [2, 3] (.list [(1 : ℚ)/5, 2/5]) 3 =
      .ok (.single ([(1 : ℚ)/5, 2/5].getD 1 0), 3) :=
  ⟨⟨by decide, by decide, by decide, by decide⟩,
    bic_threshold_selection [2, 3] [(1 : ℚ)/5, 2/5] 3 1 (by decide) (by decide)
      (by decide) (by decide)⟩

/-- Claim C8, evaluated at a zero-mass video: `__generate_histograms`
performs the division by zero and returns (no error is raised); under the
`ℚ` convention the returned entries are all `0`, so in particular they do
not sum to `1` (in numpy floats they are NaN).  This exhibits the divergence
from the specified `DegenerateHistogramError`. -/
theorem zero_mass_histogram_no_error :
    generate_histograms 2 [[[[[0], [0], [0], [0]]]]] = [[0, 0]] ∧
    ((generate_histograms 2 [[[[[0], [0], [0], [0]]]]]).getD 0 []).sum ≠ 1 := by
  constructor <;>
    norm_num [generate_histograms, videoHistogram, videoHistogramRaw, frameContrib,
      List.range_succ]

theorem mem_scan_foldl (thr : ℚ) (hist : List ℚ) (l : List ℕ) (acc : List ℕ) (j : ℕ) :
    (j ∈ l.foldl
        (fun a i => if hist.getD i 0 > thr ∧ i ∉ a then a ++ [i] else a) acc) ↔
      j ∈ acc ∨ (j ∈ l ∧ hist.getD j 0 > thr) := by
  induction l generalizing acc with
  | nil => simp
  | cons x xs ih =>
    rw [List.foldl_cons, ih]
    by_cases hx : hist.getD x 0 > thr ∧ x ∉ acc
    · rw [if_pos hx]
      simp only [List.mem_append, List.mem_cons, List.not_mem_nil, or_false]
      constructor
      · rintro ((hj | rfl) | ⟨hj, hp⟩)
        · exact Or.inl hj
        · exact Or.inr ⟨Or.inl rfl, hx.1⟩
        · exact Or.inr ⟨Or.inr hj, hp⟩
      · rintro (hj | ⟨(rfl | hj), hp⟩)
        · exact Or.inl (Or.inl hj)
        · exact Or.inl (Or.inr rfl)
        · exact Or.inr ⟨hj, hp⟩
    · rw [if_neg hx]
      simp only [List.mem_cons]
      push_neg at hx
      constructor
      · rintro (hj | ⟨hj, hp⟩)
        · exact Or.inl hj
        · exact Or.inr ⟨Or.inr hj, hp⟩
      · rintro (hj | ⟨(rfl | hj), hp⟩)
        · exact Or.inl hj
        · exact Or.inl (hx hp)
        · exact Or.inr ⟨hj, hp⟩

theorem mem_neutralScan (K : ℕ) (thr : ℚ) (hist : List ℚ) (acc : List ℕ) (j : ℕ) :
    j ∈ neutralScan K thr hist acc ↔
      j ∈ acc ∨ (j < K ∧ hist.getD j 0 > thr) := by
  rw [neutralScan, mem_scan_foldl, List.mem_range]

theorem mem_extract_neutral_aux (labels : List ℤ) (hists : List (List ℚ)) (K : ℕ)
    (thr : ℚ) (ti : List ℕ) (acc : List ℕ) (j : ℕ) :
    (j ∈ ti.foldl
        (fun acc s =>
          if labels.getD s 1 = 0 then neutralScan K thr (hists.getD s []) acc
          else acc) acc) ↔
      j ∈ acc ∨ ∃ s ∈ ti, labels.getD s 1 = 0 ∧ j < K ∧
        (hists.getD s []).getD j 0 > thr := by
  induction ti generalizing acc with
  | nil => simp
  | cons s ss ih =>
    rw [List.foldl_cons, ih]
    by_cases hs : labels.getD s 1 = 0
    · rw [if_pos hs, mem_neutralScan]
      simp only [List.mem_cons]
      constructor
      · rintro ((hj | ⟨hK, hp⟩) | ⟨t, ht, h0, hK, hp⟩)
        · exact Or.inl hj
        · exact Or.inr ⟨s, Or.inl rfl, hs, hK, hp⟩
        · exact Or.inr ⟨t, Or.inr ht, h0, hK, hp⟩
      · rintro (hj | ⟨t, (rfl | ht), h0, hK, hp⟩)
        · exact Or.inl (Or.inl hj)
        · exact Or.inl (Or.inr ⟨hK, hp⟩)
        · exact Or.inr ⟨t, ht, h0, hK, hp⟩
    · rw [if_neg hs]
      simp only [List.mem_cons]
      constructor
      · rintro (hj | ⟨t, ht, h0, hK, hp⟩)
        · exact Or.inl hj
        · exact Or.inr ⟨t, Or.inr ht, h0, hK, hp⟩
      · rintro (hj | ⟨t, (rfl | ht), h0, hK, hp⟩)
        · exact Or.inl hj
        · exact absurd h0 hs
        · exact Or.inr ⟨t, ht, h0, hK, hp⟩

theorem mem_extract_neutral (labels : List ℤ) (ti : List ℕ) (hists : List (List ℚ))
    (K : ℕ) (thr : ℚ) (j : ℕ) :
    j ∈ extract_neutral labels ti hists K thr ↔
      ∃ s ∈ ti, labels.getD s 1 = 0 ∧ j < K ∧
        (hists.getD s []).getD j 0 > thr := by
  rw [extract_neutral, mem_extract_neutral_aux]
  simp

/-- Claim C5: for every threshold and every training index set, the
partitioner's neutral and relevant index lists are disjoint and jointly
cover `{0, ..., K-1}` exactly; and when no pain-free training video has a
histogram entry above the threshold (in particular when there is no
pain-free training video at all) the neutral list is empty and the relevant
list is the full range. -/
theorem partition_union_disjoint (labels : List ℤ) (ti : List ℕ)
    (hists : List (List ℚ)) (K : ℕ) (thr : ℚ) :
    (∀ j, ¬(j ∈ extract_neutral labels ti hists K thr ∧
        j ∈ extract_relevant labels ti hists K thr)) ∧
    (∀ j, j < K ↔ (j ∈ extract_neutral labels ti hists K thr ∨
        j ∈ extract_relevant labels ti hists K thr)) ∧
    ((∀ s ∈ ti, labels.getD s 1 = 0 →
        ∀ j < K, ¬((hists.getD s []).getD j 0 > thr)) →
      extract_neutral labels ti hists K thr = [] ∧
      extract_relevant labels ti hists K thr = List.range K) := by
  refine ⟨?_, ?_, ?_⟩
  · rintro j ⟨hn, hr⟩
    rw [extract_relevant, List.mem_filter] at hr
    exact absurd hn (by simpa using hr.2)
  · intro j
    constructor
    · intro hj
      by_cases hn : j ∈ extract_neutral labels ti hists K thr
      · exact Or.inl hn
      · refine Or.inr ?_
        rw [extract_relevant, List.mem_filter]
        exact ⟨List.mem_range.mpr hj, by simpa using hn⟩
    · rintro (hn | hr)
      · rw [mem_extract_neutral] at hn
        obtain ⟨s, _, _, hK, _⟩ := hn
        exact hK
      · rw [extract_relevant, List.mem_filter] at hr
        exact List.mem_range.mp hr.1
  · intro hnone
    have hempty : extract_neutral labels ti hists K thr = [] := by
      rw [List.eq_nil_iff_forall_not_mem]
      intro j hj
      rw [mem_extract_neutral] at hj
      obtain ⟨s, hsti, h0, hK, hp⟩ := hj
      exact hnone s hsti h0 j hK hp
    refine ⟨hempty, ?_⟩
    rw [extract_relevant, hempty]
    simp

/-- Claim C6: the partitioner's threshold comparison is strict — a
component whose histogram value only reaches the threshold (so is `≤` it on
every pain-free training video, equality included) is not marked neutral —
and raising the threshold never decreases the size of the relevant list. -/
theorem threshold_strict_monotone (labels : List ℤ) (ti : List ℕ)
    (hists : List (List ℚ)) (K : ℕ) (t1 t2 : ℚ) (h12 : t1 < t2) :
    (∀ j, (∀ s ∈ ti, labels.getD s 1 = 0 → (hists.getD s []).getD j 0 ≤ t2) →
      j ∉ extract_neutral labels ti hists K t2) ∧
    (extract_relevant labels ti hists K t1).length ≤
      (extract_relevant labels ti hists K t2).length := by
  constructor
  · intro j hle hj
    rw [mem_extract_neutral] at hj
    obtain ⟨s, hsti, h0, _, hp⟩ := hj
    exact absurd hp (not_lt.mpr (hle s hsti h0))
  · have hsub : ∀ j, j ∈ extract_neutral labels ti hists K t2 →
        j ∈ extract_neutral labels ti hists K t1 := by
      intro j hj
      rw [mem_extract_neutral] at hj ⊢
      obtain ⟨s, hsti, h0, hK, hp⟩ := hj
      exact ⟨s, hsti, h0, hK, lt_trans h12 hp⟩
    rw [extract_relevant, extract_relevant, ← List.countP_eq_length_filter,
      ← List.countP_eq_length_filter]
    refine List.countP_mono_left ?_
    intro a _ ha
    simp only [decide_eq_true_eq] at ha ⊢
    intro hmem
    exact ha (hsub a hmem)

/-- Witness for claim C6: one pain-free training video with histogram
`[1/2]`, thresholds `0 < 1/4`. -/
theorem threshold_strict_monotone_witness :
    (0 : ℚ) < 1/4 ∧
    ((∀ j, (∀ s ∈ [0], ([0] : List ℤ).getD s 1 = 0 →
        ([[(1 : ℚ)/2]].getD s []).getD j 0 ≤ 1/4) →
      j ∉ extract_neutral [0] [0] [[(1 : ℚ)/2]] 1 (1/4)) ∧
    (extract_relevant [0] [0] [[(1 : ℚ)/2]] 1 0).length ≤
      (extract_relevant [0] [0] [[(1 : ℚ)/2]] 1 (1/4)).length) :=
  ⟨by norm_num,
    threshold_strict_monotone [0] [0] [[(1 : ℚ)/2]] 1 0 (1/4) (by norm_num)⟩

theorem range_getD (n k : ℕ) (h : k < n) : (List.range n).getD k 0 = k := by
  simp [List.getD_eq_getElem?_getD, List.getElem?_range h]

theorem centerFrame_getD_nose_x (L : ℕ) (hL : 30 < L) (fr : Frame) :
    (centerFrame L fr).getD 30 0 = 0 := by
  rw [centerFrame, getD_map_lt _ _ 30 0 0 (by simp; omega),
    range_getD (2 * L) 30 (by omega)]
  simp [hL]

theorem centerFrame_getD_nose_y (L : ℕ) (hL : 30 < L) (fr : Frame) :
    (centerFrame L fr).getD (L + 30) 0 = 0 := by
  rw [centerFrame, getD_map_lt _ _ (L + 30) 0 0 (by simp; omega),
    range_getD (2 * L) (L + 30) (by omega)]
  have hnot : ¬(L + 30 < L) := by omega
  simp [hnot, Nat.add_comm]

theorem frameVel_getD_nose (rt : ℚ → ℚ) (L : ℕ) (hL : 30 < L) (fra frb : Frame) :
    (frameVel rt L (centerFrame L fra) (centerFrame L frb)).getD 30 0 = rt 0 := by
  rw [frameVel, getD_map_lt _ _ 30 0 0 (by simpa using hL), range_getD L 30 hL,
    centerFrame_getD_nose_x L hL fra, centerFrame_getD_nose_x L hL frb,
    centerFrame_getD_nose_y L hL fra, centerFrame_getD_nose_y L hL frb]
  norm_num

/-- Claim C10: when the nose-tip landmark index 30 is among the selected
landmark indexes (at position `j` of the selection list), the extracted
motion feature at that position is exactly `0` in every produced feature
vector of every video: centering subtracts the nose-tip coordinates from
themselves, so the nose-tip velocity is the square root of `0`. -/
theorem nose_tip_feature_zero (rt : ℚ → ℚ) (L : ℕ) (sel : List ℕ) (video : Video)
    (hrt : rt 0 = 0) (hL : 30 < L) (j : ℕ) (hj : j < sel.length)
    (hsel : sel.getD j 0 = 30) :
    ∀ r ∈ dataVelocities rt L sel video, r.getD j 0 = 0 := by
  intro r hr
  rw [dataVelocities] at hr
  simp only [List.mem_map] at hr
  obtain ⟨row, hrow, rfl⟩ := hr
  have hrow' : row ∈ lndkVel rt L video := List.mem_of_mem_drop hrow
  rw [lndkVel] at hrow'
  simp only [List.mem_map] at hrow'
  obtain ⟨p, hp, rfl⟩ := hrow'
  obtain ⟨hp1, hp2⟩ := List.of_mem_zip hp
  simp only [List.mem_map] at hp1
  obtain ⟨fra, _, ha⟩ := hp1
  have hp2' : p.2 ∈ video.map (centerFrame L) := List.mem_of_mem_tail hp2
  simp only [List.mem_map] at hp2'
  obtain ⟨frb, _, hb⟩ := hp2'
  rw [getD_map_lt _ sel j 0 0 hj, hsel, ← ha, ← hb,
    frameVel_getD_nose rt L hL fra frb, hrt]

/-- Witness for claim C10: the identity in place of the square root,
`L = 31`, selection `[30]`, a three-frame video (so one feature vector is
produced). -/
theorem nose_tip_feature_zero_witness :
    ((fun q : ℚ => q) 0 = 0 ∧ 30 < 31 ∧ 0 < [30].length ∧ [30].getD 0 0 = 30) ∧
    (∀ r ∈ dataVelocities (fun q => q) 31 [30] [[], [], []], r.getD 0 0 = 0) :=
  ⟨⟨rfl, by decide, by decide, by decide⟩,
    nose_tip_feature_zero (fun q => q) 31 [30] [[], [], []] rfl (by decide) 0
      (by decide) (by decide)⟩

end PrelimClustering
